import Mathlib

/-!
# TouchScreen: a shallow embedding of `TouchScreen.cpp`

The 4-wire resistive touch screen driver is embedded as pure functions over an
explicit board state (pin modes, pin levels, the stream of analog conversion
results and a log of the analog reads performed).

* `TSPoint` with its two constructors and `operator==` / `operator!=`;
* `insert_sort` (the `NUMSAMPLES > 2` policy);
* `TouchScreen.getPoint`, `readTouchX`, `readTouchY`, `pressure`.

Machine integers are mathematical integers with an explicit reduction where a
narrowing conversion happens (`wrap16` for `int16_t`, `wrapU16` for
`uint16_t`).  `float` is IEEE-754 binary32 with round-to-nearest-even, modelled
over the rationals.
-/

/-! ## Machine integers -/

/-- Conversion of an integer to `int16_t`: reduction modulo 2^16 into
`[-32768, 32767]`. -/
def wrap16 (v : Int) : Int := (v + 32768) % 65536 - 32768

/-- Conversion of an integer to `uint16_t`: reduction modulo 2^16 into
`[0, 65535]`. -/
def wrapU16 (v : Int) : Int := v % 65536

/-! ## TSPoint -/

/-- The point value: three `int16_t` fields. -/
structure TSPoint where
  x : Int
  y : Int
  z : Int
  deriving DecidableEq, Repr

namespace TSPoint

/-- Constructor `TSPoint::TSPoint(void)`: the body is `x = y = 0;`.  The field `z` is not
assigned, so it keeps whatever the object's storage held before construction;
that prior content is the argument `zStorage`. -/
def init (zStorage : Int) : TSPoint :=
  { x := 0, y := 0, z := zStorage }

/-- Constructor `TSPoint::TSPoint(int16_t x0, int16_t y0, int16_t z0)`: the arguments are
converted to `int16_t` at the call and stored. -/
def init3 (x0 y0 z0 : Int) : TSPoint :=
  { x := wrap16 x0, y := wrap16 y0, z := wrap16 z0 }

/-- Operator `TSPoint::operator==`: `(p1.x == x) && (p1.y == y) && (p1.z == z)`. -/
def eq (self p1 : TSPoint) : Bool :=
  (p1.x == self.x) && (p1.y == self.y) && (p1.z == self.z)

/-- Operator `TSPoint::operator!=`: `(p1.x != x) || (p1.y != y) || (p1.z != z)`. -/
def ne (self p1 : TSPoint) : Bool :=
  (p1.x != self.x) || (p1.y != self.y) || (p1.z != self.z)

end TSPoint

/-! ## The digital / analog I/O subsystem -/

/-- Direction of a pin. -/
inductive PinMode where
  | INPUT
  | OUTPUT
  deriving DecidableEq, Repr

/-- Level written to a pin. -/
inductive PinLevel where
  | LOW
  | HIGH
  deriving DecidableEq, Repr

/-- Direction and level registers of one pin. -/
structure PinState where
  mode : PinMode
  level : PinLevel
  deriving DecidableEq, Repr

/-- One analog read: the pin that was converted and the state of every pin at
that moment. -/
structure ReadEvent where
  pin : Nat
  pins : Nat → PinState

/-- The board: the pin registers, the results the analog converter will deliver
(`adc 0` is the next one), the analog reads performed so far (oldest first),
and the integer a conversion of a non-finite `float` to an integer type
yields (C++ leaves that conversion undefined). -/
structure Board where
  pins : Nat → PinState
  adc : Nat → Int
  reads : List ReadEvent
  nonFinite : Int

/-- Modelled from the spec: `pinMode` of the Arduino core, which is not part of
the repository; it records the direction of the pin (section 6,
`setPinMode(pin, mode)`). -/
def pinMode (pin : Nat) (m : PinMode) (b : Board) : Board :=
  { b with pins := fun p => if p = pin then { b.pins p with mode := m } else b.pins p }

/-- Modelled from the spec: `digitalWrite` of the Arduino core, which is not part
of the repository; it records the level of the pin (section 6,
`writeDigital(pin, level)`). -/
def digitalWrite (pin : Nat) (l : PinLevel) (b : Board) : Board :=
  { b with pins := fun p => if p = pin then { b.pins p with level := l } else b.pins p }

/-- Modelled from the spec: `analogRead` of the Arduino core, which is not part
of the repository; it blocks, always returns, and delivers the next conversion
result (section 6, `readAnalog(pin)`).  The read is appended to the log. -/
def analogRead (pin : Nat) (b : Board) : Int × Board :=
  (b.adc 0,
   { b with adc := fun k => b.adc (k + 1),
            reads := b.reads ++ [{ pin := pin, pins := b.pins }] })

/-- Every conversion result lies in the 10-bit range `[0, 1023]`. -/
def InRange (b : Board) : Prop := ∀ k, 0 ≤ b.adc k ∧ b.adc k ≤ 1023

/-! ## `float` (IEEE-754 binary32, round to nearest, ties to even) -/

/-- Nearest integer to a rational, ties to the even integer. -/
def roundHalfEven (q : ℚ) : Int :=
  let f := ⌊q⌋
  let r := q - f
  if r < 1 / 2 then f
  else if 1 / 2 < r then f + 1
  else if f % 2 = 0 then f else f + 1

/-- Search for the exponent of the unit in the last place: the first `t` among
`t0, t0 + 1, ..., t0 + n - 1` with `|q| < 2 ^ (t + 24)`. -/
def quantumFrom (q : ℚ) : Nat → Int → Option Int
  | 0, _ => none
  | n + 1, t => if |q| < (2 : ℚ) ^ (t + 24) then some t else quantumFrom q n (t + 1)

/-- The exponent of the unit in the last place used for `q`: the least `t` in
`[-149, 104]` with `|q| < 2 ^ (t + 24)`, so that `q / 2 ^ t` has at most 24
significant bits before the binary point.  There is none from `2 ^ 128` on. -/
def quantum (q : ℚ) : Option Int := quantumFrom q 254 (-149)

/-- A `float`: `some q` is the finite value `q`, `none` stands for an infinity
or a NaN. -/
abbrev Float32 := Option ℚ

namespace Float32

/-- Rounding of an exact result to binary32; overflow gives an infinity. -/
def round (q : ℚ) : Float32 :=
  match quantum q with
  | none => none
  | some t =>
    let v : ℚ := (roundHalfEven (q / (2 : ℚ) ^ t) : ℚ) * (2 : ℚ) ^ t
    if |v| < (2 : ℚ) ^ (128 : Int) then some v else none

/-- Conversion of an integer operand to `float`. -/
def ofInt (i : Int) : Float32 := round (i : ℚ)

/-- Compound assignment `a /= i` for an integer operand `i`; a zero divisor gives
an infinity or a NaN. -/
def divInt (a : Float32) (i : Int) : Float32 :=
  match a, ofInt i with
  | some x, some y => if y = 0 then none else round (x / y)
  | _, _ => none

/-- Compound assignment `a -= i` for an integer operand `i`. -/
def subInt (a : Float32) (i : Int) : Float32 :=
  match a, ofInt i with
  | some x, some y => round (x - y)
  | _, _ => none

/-- Compound assignment `a *= i` for an integer operand `i`. -/
def mulInt (a : Float32) (i : Int) : Float32 :=
  match a, ofInt i with
  | some x, some y => round (x * y)
  | _, _ => none

/-- Conversion of a `float` to an integer type: truncation toward zero for a
finite value; `nonFinite` for an infinity or a NaN. -/
def toInt (nonFinite : Int) : Float32 → Int
  | some q => Int.tdiv q.num (q.den : Int)
  | none => nonFinite

end Float32

/-- The resistance computation shared by `getPoint` and `pressure`:
`rtouch = z2; rtouch /= z1; rtouch -= 1; rtouch *= x; rtouch *= _rxplate;
rtouch /= 1024;`. -/
def rtouch (z1 z2 x rxplate : Int) : Float32 :=
  Float32.divInt
    (Float32.mulInt
      (Float32.mulInt (Float32.subInt (Float32.divInt (Float32.ofInt z2) z1) 1) x)
      rxplate)
    1024

/-- The formula of the specification, over exact rationals:
`((z2 / z1) - 1) * X * R / 1024`, truncated toward zero. -/
def specRtouch (z1 z2 x rxplate : Int) : Int :=
  let q : ℚ := (((z2 : ℚ) / (z1 : ℚ)) - 1) * (x : ℚ) * (rxplate : ℚ) / 1024
  Int.tdiv q.num (q.den : Int)

/-! ## insert_sort -/

/-- The inner loop of `insert_sort`:
`for (j = i; j >= 1 && save < array[j - 1]; j--) array[j] = array[j - 1];`
started at `j`; it returns the array and the final `j`. -/
def insert_sort.shift (save : Int) : Nat → List Int → List Int × Nat
  | 0, array => (array, 0)
  | j + 1, array =>
    if save < array.getD j 0 then
      insert_sort.shift save j (array.set (j + 1) (array.getD j 0))
    else (array, j + 1)

/-- The body of the outer loop of `insert_sort` for one `i`:
`save = array[i];` the inner loop; `array[j] = save;`. -/
def insert_sort.body (array : List Int) (i : Nat) : List Int :=
  let save := array.getD i 0
  let r := insert_sort.shift save i array
  r.1.set r.2 save

/-- Function `insert_sort(int array[], uint8_t size)`: the outer loop
`for (int i = 1; i < size; i++)` runs its body for `i = 1, ..., size - 1`
(`size` is at most 255, so the `uint8_t` index `j = i` never wraps). -/
def insert_sort (array : List Int) (size : Nat) : List Int :=
  (List.range' 1 (size - 1)).foldl insert_sort.body array

/-! ## TouchScreen -/

/-- Constant `#define NUMSAMPLES 2`. -/
def NUMSAMPLES : Nat := 2

/-- The sensor: four pin identifiers (`uint8_t`), the panel resistance
(`uint16_t`) and the advisory pressure threshold. -/
structure TouchScreen where
  _yp : Nat
  _xm : Nat
  _ym : Nat
  _xp : Nat
  _rxplate : Nat
  pressureThreshhold : Int

/-- The sampling loop `for (i=0; i<NUMSAMPLES; i++) samples[i] = analogRead(pin);`
for `n` samples. -/
def readSamples (pin : Nat) : Nat → Board → List Int × Board
  | 0, b => ([], b)
  | n + 1, b =>
    let r := analogRead pin b
    let rest := readSamples pin n r.2
    (r.1 :: rest.1, rest.2)

/-- One oversampling stage of `getPoint` (lines 106-124 for X, 143-160 for Y):
the sampling loop, then `insert_sort` when `NUMSAMPLES > 2`, the agreement check
when `NUMSAMPLES == 2`, and the choice of `samples[NUMSAMPLES/2]`.  It returns the
axis value, the validity flag and the board. -/
def sampleAxis (numsamples pin : Nat) (valid : Bool) (b : Board) : Int × Bool × Board :=
  let r := readSamples pin numsamples b
  let samples := if numsamples > 2 then insert_sort r.1 numsamples else r.1
  let valid1 :=
    if numsamples = 2 ∧
        (samples.getD 0 0 < samples.getD 1 0 - 5 ∨ samples.getD 0 0 > samples.getD 1 0 + 5)
    then false else valid
  (samples.getD (numsamples / 2) 0, valid1, r.2)

/-- The local variables of `getPoint` at its `return`, with the board. -/
structure GetPointRun where
  x : Int
  y : Int
  z : Int
  valid : Bool
  board : Board

namespace TouchScreen

/-- Constructor `TouchScreen::TouchScreen(xp, yp, xm, ym)`. -/
def init4 (xp yp xm ym : Nat) : TouchScreen :=
  { _yp := yp, _xm := xm, _ym := ym, _xp := xp, _rxplate := 0, pressureThreshhold := 10 }

/-- Constructor `TouchScreen::TouchScreen(xp, yp, xm, ym, rxplate)`. -/
def init5 (xp yp xm ym rxplate : Nat) : TouchScreen :=
  { _yp := yp, _xm := xm, _ym := ym, _xp := xp, _rxplate := rxplate,
    pressureThreshhold := 10 }

/-- Method `TouchScreen::readTouchX`. -/
def readTouchX (ts : TouchScreen) (b : Board) : Int × Board :=
  let b := pinMode ts._yp PinMode.INPUT b
  let b := pinMode ts._ym PinMode.INPUT b
  let b := digitalWrite ts._yp PinLevel.LOW b
  let b := digitalWrite ts._ym PinLevel.LOW b
  let b := pinMode ts._xp PinMode.OUTPUT b
  let b := digitalWrite ts._xp PinLevel.HIGH b
  let b := pinMode ts._xm PinMode.OUTPUT b
  let b := digitalWrite ts._xm PinLevel.LOW b
  let r := analogRead ts._yp b
  (1023 - r.1, r.2)

/-- Method `TouchScreen::readTouchY`. -/
def readTouchY (ts : TouchScreen) (b : Board) : Int × Board :=
  let b := pinMode ts._xp PinMode.INPUT b
  let b := pinMode ts._xm PinMode.INPUT b
  let b := digitalWrite ts._xp PinLevel.LOW b
  let b := digitalWrite ts._xm PinLevel.LOW b
  let b := pinMode ts._yp PinMode.OUTPUT b
  let b := digitalWrite ts._yp PinLevel.HIGH b
  let b := pinMode ts._ym PinMode.OUTPUT b
  let b := digitalWrite ts._ym PinLevel.LOW b
  let r := analogRead ts._xm b
  (1023 - r.1, r.2)

/-- The pin set-up of `TouchScreen::pressure` (lines 282-294), before its
reads. -/
def pressureSetup (ts : TouchScreen) (b : Board) : Board :=
  let b := pinMode ts._xp PinMode.OUTPUT b
  let b := digitalWrite ts._xp PinLevel.LOW b
  let b := pinMode ts._ym PinMode.OUTPUT b
  let b := digitalWrite ts._ym PinLevel.HIGH b
  let b := digitalWrite ts._xm PinLevel.LOW b
  let b := pinMode ts._xm PinMode.INPUT b
  let b := digitalWrite ts._yp PinLevel.LOW b
  pinMode ts._yp PinMode.INPUT b

/-- Method `TouchScreen::pressure`; the result is converted to `uint16_t`. -/
def pressure (ts : TouchScreen) (b : Board) : Int × Board :=
  let b := pressureSetup ts b
  let r1 := analogRead ts._xm b
  let z1 := r1.1
  let r2 := analogRead ts._yp r1.2
  let z2 := r2.1
  if ts._rxplate ≠ 0 then
    let rx := readTouchX ts r2.2
    (wrapU16 (Float32.toInt b.nonFinite (rtouch z1 z2 rx.1 ts._rxplate)), rx.2)
  else
    (wrapU16 (1023 - (z2 - z1)), r2.2)

/-- The body of `TouchScreen::getPoint` for a given value of `NUMSAMPLES`, up to
the `return`.  The locals `x`, `y`, `z` are `int`; `z = rtouch` truncates the
`float` toward zero, and the narrowing to 16 bits happens where the point is
built (`TSPoint.init3`), which is also what a 16-bit `int` keeps of the
truncated value. -/
def getPointRun (numsamples : Nat) (ts : TouchScreen) (b : Board) : GetPointRun :=
  let valid := true
  let b := pinMode ts._yp PinMode.INPUT b
  let b := pinMode ts._ym PinMode.INPUT b
  let b := digitalWrite ts._yp PinLevel.LOW b
  let b := digitalWrite ts._ym PinLevel.LOW b
  let b := pinMode ts._xp PinMode.OUTPUT b
  let b := pinMode ts._xm PinMode.OUTPUT b
  let b := digitalWrite ts._xp PinLevel.HIGH b
  let b := digitalWrite ts._xm PinLevel.LOW b
  let sx := sampleAxis numsamples ts._yp valid b
  let x := sx.1
  let valid := sx.2.1
  let b := sx.2.2
  let b := pinMode ts._xp PinMode.INPUT b
  let b := pinMode ts._xm PinMode.INPUT b
  let b := digitalWrite ts._xp PinLevel.LOW b
  let b := pinMode ts._yp PinMode.OUTPUT b
  let b := digitalWrite ts._yp PinLevel.HIGH b
  let b := pinMode ts._ym PinMode.OUTPUT b
  let b := digitalWrite ts._ym PinLevel.LOW b
  let sy := sampleAxis numsamples ts._xm valid b
  let y := sy.1
  let valid := sy.2.1
  let b := sy.2.2
  let b := pinMode ts._xp PinMode.OUTPUT b
  let b := digitalWrite ts._xp PinLevel.LOW b
  let b := digitalWrite ts._ym PinLevel.HIGH b
  let b := digitalWrite ts._yp PinLevel.LOW b
  let b := pinMode ts._yp PinMode.INPUT b
  let r1 := analogRead ts._xm b
  let z1 := r1.1
  let r2 := analogRead ts._yp r1.2
  let z2 := r2.1
  let b := r2.2
  let z :=
    if ts._rxplate ≠ 0 then Float32.toInt b.nonFinite (rtouch z1 z2 x ts._rxplate)
    else z2 - z1
  let z := if !valid then 0 else z
  let b := pinMode ts._yp PinMode.OUTPUT b
  let b := pinMode ts._xm PinMode.OUTPUT b
  let b := pinMode ts._ym PinMode.OUTPUT b
  let b := pinMode ts._xp PinMode.OUTPUT b
  { x := x, y := y, z := z, valid := valid, board := b }

/-- Method `TouchScreen::getPoint` for a given value of `NUMSAMPLES`:
`return TSPoint(x, y, z);` with the board it leaves. -/
def getPointWith (numsamples : Nat) (ts : TouchScreen) (b : Board) : TSPoint × Board :=
  let r := getPointRun numsamples ts b
  (TSPoint.init3 r.x r.y r.z, r.board)

/-- Method `TouchScreen::getPoint` as compiled, with `NUMSAMPLES` equal to 2. -/
def getPoint (ts : TouchScreen) (b : Board) : TSPoint × Board :=
  getPointWith NUMSAMPLES ts b

end TouchScreen

/-- A board whose pins are all inputs at low level, with the given conversion
results still to come. -/
def Board.fresh (adc : Nat → Int) : Board :=
  { pins := fun _ => { mode := PinMode.INPUT, level := PinLevel.LOW },
    adc := adc, reads := [], nonFinite := 0 }

/-- The conversion results given by a list, followed by zeros. -/
def adcOf (l : List Int) : Nat → Int := fun k => l.getD k 0

/-- The analog reads performed between the board `b0` and the later board
`b1`. -/
def readsSince (b0 b1 : Board) : List ReadEvent := b1.reads.drop b0.reads.length

/-- The mode and level of the four electrodes, in the order X+, Y+, X-, Y-. -/
def TouchScreen.wiring (ts : TouchScreen) (pins : Nat → PinState) : List PinState :=
  [pins ts._xp, pins ts._yp, pins ts._xm, pins ts._ym]

/-- The four pin identifiers are pairwise distinct. -/
def TouchScreen.DistinctPins (ts : TouchScreen) : Prop :=
  ts._xp ≠ ts._yp ∧ ts._xp ≠ ts._xm ∧ ts._xp ≠ ts._ym ∧
    ts._yp ≠ ts._xm ∧ ts._yp ≠ ts._ym ∧ ts._xm ≠ ts._ym

instance (ts : TouchScreen) : Decidable ts.DistinctPins := by
  unfold TouchScreen.DistinctPins
  infer_instance

/-- X-axis wiring (X+, Y+, X-, Y-): X+ output high, Y+ input low, X- output low,
Y- input low. -/
def wiringX : List PinState :=
  [⟨PinMode.OUTPUT, PinLevel.HIGH⟩, ⟨PinMode.INPUT, PinLevel.LOW⟩,
   ⟨PinMode.OUTPUT, PinLevel.LOW⟩, ⟨PinMode.INPUT, PinLevel.LOW⟩]

/-- Y-axis wiring (X+, Y+, X-, Y-): X+ input low, Y+ output high, X- input low,
Y- output low. -/
def wiringY : List PinState :=
  [⟨PinMode.INPUT, PinLevel.LOW⟩, ⟨PinMode.OUTPUT, PinLevel.HIGH⟩,
   ⟨PinMode.INPUT, PinLevel.LOW⟩, ⟨PinMode.OUTPUT, PinLevel.LOW⟩]

/-- Pressure wiring (X+, Y+, X-, Y-): X+ output low, Y+ input low, X- input low,
Y- output high. -/
def wiringZ : List PinState :=
  [⟨PinMode.OUTPUT, PinLevel.LOW⟩, ⟨PinMode.INPUT, PinLevel.LOW⟩,
   ⟨PinMode.INPUT, PinLevel.LOW⟩, ⟨PinMode.OUTPUT, PinLevel.HIGH⟩]

/-! ## Basic facts about the board operations -/

theorem readSamples_fst (pin : Nat) (n : Nat) (b : Board) :
    (readSamples pin n b).1 = (List.range n).map b.adc := by
  induction n generalizing b with
  | zero => simp [readSamples]
  | succ n ih =>
    simp only [readSamples, ih, analogRead]
    rw [List.range_succ_eq_map]
    simp [Function.comp_def]

theorem readSamples_adc (pin : Nat) (n : Nat) (b : Board) :
    (readSamples pin n b).2.adc = fun k => b.adc (k + n) := by
  induction n generalizing b with
  | zero => simp [readSamples]
  | succ n ih =>
    simp only [readSamples, ih, analogRead]
    funext k
    congr 1

theorem readSamples_pins (pin : Nat) (n : Nat) (b : Board) :
    (readSamples pin n b).2.pins = b.pins := by
  induction n generalizing b with
  | zero => simp [readSamples]
  | succ n ih => simp only [readSamples, ih, analogRead]

theorem readSamples_nonFinite (pin : Nat) (n : Nat) (b : Board) :
    (readSamples pin n b).2.nonFinite = b.nonFinite := by
  induction n generalizing b with
  | zero => simp [readSamples]
  | succ n ih => simp only [readSamples, ih, analogRead]

theorem readSamples_reads (pin : Nat) (n : Nat) (b : Board) :
    (readSamples pin n b).2.reads =
      b.reads ++ List.replicate n { pin := pin, pins := b.pins } := by
  induction n generalizing b with
  | zero => simp [readSamples]
  | succ n ih =>
    simp only [readSamples, ih, analogRead, List.append_assoc, List.replicate_succ]
    rfl

theorem abs_sub_gt_five_iff (s0 s1 : Int) :
    (s0 < s1 - 5 ∨ s0 > s1 + 5) ↔ 5 < |s0 - s1| := by
  rw [lt_abs]
  constructor
  · rintro (h | h)
    · right; omega
    · left; omega
  · rintro (h | h)
    · right; omega
    · left; omega

theorem wrap16_of_range (v : Int) (h1 : -32768 ≤ v) (h2 : v ≤ 32767) : wrap16 v = v := by
  unfold wrap16
  omega

/-! ## TSPoint -/

/-- C7 (code): the default constructor assigns only `x` and `y`; an object built
in storage that held 7 in the `z` slot keeps that 7 and does not compare equal
to `TSPoint(0,0,0)`, although its `x` and `y` are 0. -/
theorem TSPoint_init_keeps_z :
    (TSPoint.init 7).x = 0 ∧ (TSPoint.init 7).y = 0 ∧ (TSPoint.init 7).z = 7 ∧
      (TSPoint.init 7).eq (TSPoint.init3 0 0 0) = false := by
  decide

/-- C8: `operator==` holds exactly when the three fields agree, `operator!=` is
its negation, a point built from `(a, b, c)` equals itself, and it differs from
the point built from `(a, b, c + 1)`, also when `c + 1` wraps at the 16-bit
limit. -/
theorem TSPoint_eq_componentwise (p q : TSPoint) :
    (p.eq q = true ↔ p.x = q.x ∧ p.y = q.y ∧ p.z = q.z) ∧
    (p.ne q = !(p.eq q)) ∧
    (∀ a b c : Int, (TSPoint.init3 a b c).eq (TSPoint.init3 a b c) = true) ∧
    (∀ a b c : Int, (TSPoint.init3 a b c).ne (TSPoint.init3 a b (c + 1)) = true) := by
  refine ⟨?_, ?_, ?_, ?_⟩
  · simp only [TSPoint.eq, Bool.and_eq_true, beq_iff_eq]
    constructor
    · rintro ⟨⟨h1, h2⟩, h3⟩
      exact ⟨h1.symm, h2.symm, h3.symm⟩
    · rintro ⟨h1, h2, h3⟩
      exact ⟨⟨h1.symm, h2.symm⟩, h3.symm⟩
  · simp only [TSPoint.eq, TSPoint.ne, bne, Bool.not_and]
  · intro a b c
    simp [TSPoint.eq]
  · intro a b c
    have h : wrap16 (c + 1) ≠ wrap16 c := by
      unfold wrap16
      omega
    simp [TSPoint.ne, TSPoint.init3, h]

/-! ## getPoint -/

/-- C3: after `getPoint` all four pins are in output mode, for every board,
every pin assignment, every panel resistance and every conversion results. -/
theorem getPoint_leaves_pins_output (ts : TouchScreen) (b : Board) :
    ((ts.getPoint b).2.pins ts._xp).mode = PinMode.OUTPUT ∧
    ((ts.getPoint b).2.pins ts._yp).mode = PinMode.OUTPUT ∧
    ((ts.getPoint b).2.pins ts._xm).mode = PinMode.OUTPUT ∧
    ((ts.getPoint b).2.pins ts._ym).mode = PinMode.OUTPUT := by
  simp only [TouchScreen.getPoint, TouchScreen.getPointWith, TouchScreen.getPointRun, pinMode]
  refine ⟨?_, ?_, ?_, ?_⟩
  · simp
  · by_cases h1 : ts._yp = ts._xp <;> by_cases h2 : ts._yp = ts._ym <;>
      by_cases h3 : ts._yp = ts._xm <;> simp [h1, h2, h3]
  · by_cases h1 : ts._xm = ts._xp <;> by_cases h2 : ts._xm = ts._ym <;> simp [h1, h2]
  · by_cases h1 : ts._ym = ts._xp <;> simp [h1]

/-- The two samples of a stage with `NUMSAMPLES` equal to 2 are the next two
conversion results. -/
theorem readSamples_two (pin : Nat) (b : Board) :
    (readSamples pin 2 b).1 = [b.adc 0, b.adc 1] := by
  simp [readSamples, analogRead]

/-- The stage with `NUMSAMPLES` equal to 2: the value is the second sample and
the flag is cleared exactly when the two samples are more than 5 apart. -/
theorem sampleAxis_two_eq (pin : Nat) (valid : Bool) (b : Board) :
    sampleAxis 2 pin valid b =
      (b.adc 1, (if 5 < |b.adc 0 - b.adc 1| then false else valid),
        (readSamples pin 2 b).2) := by
  simp only [sampleAxis, readSamples_two, abs_sub_gt_five_iff]
  simp

/-- The locals of `getPoint` (with `NUMSAMPLES` equal to 2) in terms of the six
conversion results it consumes. -/
theorem getPointRun_two (ts : TouchScreen) (b : Board) :
    (ts.getPointRun 2 b).x = b.adc 1 ∧
    (ts.getPointRun 2 b).y = b.adc 3 ∧
    (ts.getPointRun 2 b).valid =
      (if 5 < |b.adc 2 - b.adc 3| then false
       else if 5 < |b.adc 0 - b.adc 1| then false else true) ∧
    (ts.getPointRun 2 b).z =
      (if !(ts.getPointRun 2 b).valid then 0
       else if ts._rxplate ≠ 0 then
         Float32.toInt b.nonFinite (rtouch (b.adc 4) (b.adc 5) (b.adc 1) ts._rxplate)
       else b.adc 5 - b.adc 4) := by
  simp only [TouchScreen.getPointRun, sampleAxis_two_eq, readSamples_adc, pinMode,
    digitalWrite, analogRead, readSamples_nonFinite]
  simp

/-- A board fed from a list of in-range results is in range. -/
theorem inRange_fresh_adcOf (l : List Int) (h : ∀ v ∈ l, 0 ≤ v ∧ v ≤ 1023) :
    InRange (Board.fresh (adcOf l)) := by
  intro k
  simp only [Board.fresh, adcOf]
  by_cases hk : k < l.length
  · rw [List.getD_eq_getElem l 0 hk]
    exact h _ (List.getElem_mem hk)
  · rw [List.getD_eq_default l 0 (by omega)]
    omega

/-- C1: when the two X-stage samples or the two Y-stage samples differ by more
than 5, the point returned by `getPoint` has `z = 0`, for every sensor (any
panel resistance) and every in-range conversion results. -/
theorem getPoint_disagreement_forces_z_zero (ts : TouchScreen) (b : Board)
    (_hr : InRange b)
    (h : 5 < |b.adc 0 - b.adc 1| ∨ 5 < |b.adc 2 - b.adc 3|) :
    (ts.getPoint b).1.z = 0 := by
  obtain ⟨_, _, hv, hz⟩ := getPointRun_two ts b
  have hvalid : (ts.getPointRun 2 b).valid = false := by
    rw [hv]
    rcases h with h | h
    · by_cases h2 : 5 < |b.adc 2 - b.adc 3| <;> simp [h, h2]
    · simp [h]
  simp only [TouchScreen.getPoint, TouchScreen.getPointWith, NUMSAMPLES, TSPoint.init3]
  rw [hz, hvalid]
  simp [wrap16]

/-- C1, instance: X samples 100 then 200 (Y samples 50, 50; z1 = 300, z2 = 500;
panel resistance 300) give `z = 0`. -/
theorem getPoint_disagreement_forces_z_zero_witness :
    InRange (Board.fresh (adcOf [100, 200, 50, 50, 300, 500])) ∧
    ((TouchScreen.init5 6 15 14 7 300).getPoint
      (Board.fresh (adcOf [100, 200, 50, 50, 300, 500]))).1.z = 0 :=
  ⟨inRange_fresh_adcOf _ (by decide),
   getPoint_disagreement_forces_z_zero _ _ (inRange_fresh_adcOf _ (by decide))
     (Or.inl (by decide))⟩

/-- C2: with `NUMSAMPLES` equal to 2, a stage records the second sample as its
axis value, keeps the validity flag when the two samples differ by at most 5 and
clears it when they differ by more than 5; in `getPoint` the point's `x` is the
second X-stage sample, its `y` the second Y-stage sample, and the flag at the
return is true exactly when both pairs agree within 5. -/
theorem sampleAxis_two_samples (ts : TouchScreen) (pin : Nat) (valid : Bool) (b : Board)
    (hr : InRange b) :
    (sampleAxis NUMSAMPLES pin valid b).1 = b.adc 1 ∧
    (|b.adc 0 - b.adc 1| ≤ 5 → (sampleAxis NUMSAMPLES pin valid b).2.1 = valid) ∧
    (5 < |b.adc 0 - b.adc 1| → (sampleAxis NUMSAMPLES pin valid b).2.1 = false) ∧
    (ts.getPoint b).1.x = b.adc 1 ∧
    (ts.getPoint b).1.y = b.adc 3 ∧
    ((ts.getPointRun NUMSAMPLES b).valid = true ↔
      |b.adc 0 - b.adc 1| ≤ 5 ∧ |b.adc 2 - b.adc 3| ≤ 5) := by
  obtain ⟨hx, hy, hv, _⟩ := getPointRun_two ts b
  simp only [NUMSAMPLES, sampleAxis_two_eq, TouchScreen.getPoint, TouchScreen.getPointWith,
    TSPoint.init3, hx, hy, hv]
  refine ⟨trivial, ?_, ?_, ?_, ?_, ?_⟩
  · intro h
    simp [not_lt.mpr h]
  · intro h
    simp [h]
  · exact wrap16_of_range _ (by have := hr 1; omega) (by have := hr 1; omega)
  · exact wrap16_of_range _ (by have := hr 3; omega) (by have := hr 3; omega)
  · by_cases h1 : 5 < |b.adc 0 - b.adc 1| <;> by_cases h2 : 5 < |b.adc 2 - b.adc 3| <;>
      simp only [h1, h2, if_true, if_false, not_le, not_lt] <;> simp_all

/-- C2, instance: samples 100 and 105 (difference exactly 5) keep the flag and
record 105. -/
theorem sampleAxis_two_samples_witness :
    InRange (Board.fresh (adcOf [100, 105, 50, 56, 300, 500])) ∧
    (sampleAxis NUMSAMPLES 15 true
      (Board.fresh (adcOf [100, 105, 50, 56, 300, 500]))).1 = 105 ∧
    (sampleAxis NUMSAMPLES 15 true
      (Board.fresh (adcOf [100, 105, 50, 56, 300, 500]))).2.1 = true ∧
    ((TouchScreen.init4 6 15 14 7).getPointRun NUMSAMPLES
      (Board.fresh (adcOf [100, 105, 50, 56, 300, 500]))).valid = false :=
  have h := sampleAxis_two_samples (TouchScreen.init4 6 15 14 7) 15 true
    (Board.fresh (adcOf [100, 105, 50, 56, 300, 500])) (inRange_fresh_adcOf _ (by decide))
  ⟨inRange_fresh_adcOf _ (by decide), h.1, h.2.1 (by decide),
   by
     have h6 := h.2.2.2.2.2
     cases hv : ((TouchScreen.init4 6 15 14 7).getPointRun NUMSAMPLES
        (Board.fresh (adcOf [100, 105, 50, 56, 300, 500]))).valid
     · rfl
     · exact absurd (h6.mp hv).2 (by decide)⟩

/-- C4 (code): with panel resistance 0 and agreeing samples, z1 = 300 and
z2 = 500, `getPoint` returns `z = z2 - z1 = 200`, while `pressure` on the same
z1 and z2 returns `1023 - (z2 - z1) = 823`. -/
theorem getPoint_fallback_is_plain_difference :
    ((TouchScreen.init4 6 15 14 7).getPoint
      (Board.fresh (adcOf [100, 100, 50, 50, 300, 500]))).1.z = 200 ∧
    ((TouchScreen.init4 6 15 14 7).pressure (Board.fresh (adcOf [300, 500]))).1 = 823 := by
  decide

/-! ## pressure -/

/-- The pin set-up of `pressure` leaves the conversion results, the read log and
the non-finite conversion value untouched. -/
theorem pressureSetup_frame (ts : TouchScreen) (b : Board) :
    (ts.pressureSetup b).adc = b.adc ∧ (ts.pressureSetup b).reads = b.reads ∧
      (ts.pressureSetup b).nonFinite = b.nonFinite := by
  simp [TouchScreen.pressureSetup, pinMode, digitalWrite]

/-- C5: with panel resistance 0, `pressure` returns exactly `1023 - (z2 - z1)`
with z1 the first conversion result (read from X-) and z2 the second (read from
Y+); the value lies in `[0, 2046]`; exactly two analog reads are made, of X-
then Y+, both under the pressure wiring, which is also the wiring left at the
return (no X-axis read sequence is run). -/
theorem pressure_zero_resistance (ts : TouchScreen) (b : Board)
    (h0 : ts._rxplate = 0) (hr : InRange b) :
    (ts.pressure b).1 = 1023 - (b.adc 1 - b.adc 0) ∧
    0 ≤ (ts.pressure b).1 ∧ (ts.pressure b).1 ≤ 2046 ∧
    (ts.pressure b).2.reads =
      b.reads ++ [{ pin := ts._xm, pins := (ts.pressureSetup b).pins },
                  { pin := ts._yp, pins := (ts.pressureSetup b).pins }] ∧
    (ts.pressure b).2.pins = (ts.pressureSetup b).pins := by
  obtain ⟨ha, hrd, _⟩ := pressureSetup_frame ts b
  have hval : (ts.pressure b).1 = 1023 - (b.adc 1 - b.adc 0) := by
    simp only [TouchScreen.pressure, h0, analogRead, ha]
    simp only [ne_eq, not_true_eq_false, if_false, wrapU16, Nat.zero_add]
    have h1 := hr 0
    have h2 := hr 1
    omega
  have h1 := hr 0
  have h2 := hr 1
  refine ⟨hval, by rw [hval]; omega, by rw [hval]; omega, ?_, ?_⟩
  · simp [TouchScreen.pressure, h0, analogRead, hrd]
  · simp [TouchScreen.pressure, h0, analogRead]

/-- C5, instance: z1 = 300 and z2 = 500 give 823. -/
theorem pressure_zero_resistance_witness :
    (TouchScreen.init4 6 15 14 7)._rxplate = 0 ∧
    InRange (Board.fresh (adcOf [300, 500])) ∧
    ((TouchScreen.init4 6 15 14 7).pressure (Board.fresh (adcOf [300, 500]))).1 = 823 :=
  ⟨rfl, inRange_fresh_adcOf _ (by decide),
   (pressure_zero_resistance (TouchScreen.init4 6 15 14 7) (Board.fresh (adcOf [300, 500]))
     rfl (inRange_fresh_adcOf _ (by decide))).1.trans (by decide)⟩

/-! ## Wiring at the analog reads -/

/-- C9: for pairwise distinct pins and any initial boards, the wiring of the four
electrodes at the six analog reads of `getPoint` is the X-axis wiring (twice),
the Y-axis wiring (twice) and the pressure wiring (twice), and these are the
wirings under which `readTouchX`, `readTouchY` and `pressure` make their own
reads. -/
theorem getPoint_wiring_matches_standalone (ts : TouchScreen) (b b1 : Board)
    (hd : ts.DistinctPins) :
    (readsSince b (ts.getPoint b).2).map (fun e => ts.wiring e.pins) =
      [wiringX, wiringX, wiringY, wiringY, wiringZ, wiringZ] ∧
    (readsSince b1 (ts.readTouchX b1).2).map (fun e => ts.wiring e.pins) = [wiringX] ∧
    (readsSince b1 (ts.readTouchY b1).2).map (fun e => ts.wiring e.pins) = [wiringY] ∧
    ((readsSince b1 (ts.pressure b1).2).take 2).map (fun e => ts.wiring e.pins) =
      [wiringZ, wiringZ] := by
  obtain ⟨h1, h2, h3, h4, h5, h6⟩ := hd
  have h1s := Ne.symm h1
  have h2s := Ne.symm h2
  have h3s := Ne.symm h3
  have h4s := Ne.symm h4
  have h5s := Ne.symm h5
  have h6s := Ne.symm h6
  refine ⟨?_, ?_, ?_, ?_⟩
  · simp [readsSince, TouchScreen.getPoint, TouchScreen.getPointWith, NUMSAMPLES,
      TouchScreen.getPointRun, sampleAxis, readSamples_reads, readSamples_pins, analogRead,
      pinMode, digitalWrite, TouchScreen.wiring, wiringX, wiringY, wiringZ, *]
  · simp [readsSince, TouchScreen.readTouchX, analogRead,
      pinMode, digitalWrite, TouchScreen.wiring, wiringX, *]
  · simp [readsSince, TouchScreen.readTouchY, analogRead,
      pinMode, digitalWrite, TouchScreen.wiring, wiringY, *]
  · by_cases hr : ts._rxplate = 0
    · simp [readsSince, TouchScreen.pressure, TouchScreen.pressureSetup, analogRead,
        pinMode, digitalWrite, TouchScreen.wiring, wiringZ, *]
    · simp [readsSince, TouchScreen.pressure, TouchScreen.pressureSetup,
        TouchScreen.readTouchX, analogRead,
        pinMode, digitalWrite, TouchScreen.wiring, wiringZ, *]

/-- C9, instance: pins X+ = 6, Y+ = 15, X- = 14, Y- = 7. -/
theorem getPoint_wiring_matches_standalone_witness :
    (TouchScreen.init4 6 15 14 7).DistinctPins ∧
    (readsSince (Board.fresh (adcOf [100, 100, 50, 50, 300, 500]))
        ((TouchScreen.init4 6 15 14 7).getPoint
          (Board.fresh (adcOf [100, 100, 50, 50, 300, 500]))).2).map
      (fun e => (TouchScreen.init4 6 15 14 7).wiring e.pins) =
      [wiringX, wiringX, wiringY, wiringY, wiringZ, wiringZ] :=
  ⟨by decide,
   (getPoint_wiring_matches_standalone (TouchScreen.init4 6 15 14 7)
      (Board.fresh (adcOf [100, 100, 50, 50, 300, 500])) (Board.fresh (adcOf []))
      (by decide)).1⟩

/-! ## insert_sort -/

/-- The inner loop started just after a sorted block `l`, followed by the store
of `save`: the block is split in two, `save` lands between the parts, every
element moved to the right of it is greater and every element left of it is not
greater. -/
theorem insert_sort_shift_spec (save : Int) (l : List Int) :
    List.Sorted (· ≤ ·) l → ∀ (h : Int) (t : List Int),
      ∃ l1 l2, l = l1 ++ l2 ∧ (∀ x ∈ l1, x ≤ save) ∧ (∀ x ∈ l2, save < x) ∧
        ((insert_sort.shift save l.length (l ++ h :: t)).1.set
          (insert_sort.shift save l.length (l ++ h :: t)).2 save) = l1 ++ save :: l2 ++ t := by
  induction l using List.reverseRecOn with
  | nil =>
    intro _ h t
    exact ⟨[], [], rfl, by simp, by simp, by simp [insert_sort.shift]⟩
  | append_singleton l x ih =>
    intro hs h t
    have hs2 : List.Sorted (· ≤ ·) l ∧ ∀ y ∈ l, y ≤ x := by
      have := List.pairwise_append.mp hs
      exact ⟨this.1, fun y hy => this.2.2 y hy x (by simp)⟩
    have hlen : (l ++ [x]).length = l.length + 1 := by simp
    have hget : (l ++ [x] ++ h :: t).getD l.length 0 = x := by
      rw [List.append_assoc, List.getD_append_right _ _ _ _ (le_refl _)]
      simp
    rw [hlen]
    simp only [insert_sort.shift, hget]
    by_cases hlt : save < x
    · simp only [hlt, if_true]
      have hset : (l ++ [x] ++ h :: t).set (l.length + 1) x = l ++ x :: (x :: t) := by
        simp [List.set_append_right]
      rw [hset]
      obtain ⟨l1, l2, hl, h1, h2, hres⟩ := ih hs2.1 x (x :: t)
      refine ⟨l1, l2 ++ [x], by simp [hl], h1, ?_, ?_⟩
      · intro y hy
        rcases List.mem_append.mp hy with hy | hy
        · exact h2 y hy
        · simp at hy
          omega
      · rw [hres]
        simp
    · simp only [hlt, if_false]
      refine ⟨l ++ [x], [], by simp, ?_, by simp, ?_⟩
      · intro y hy
        rcases List.mem_append.mp hy with hy | hy
        · have := hs2.2 y hy
          omega
        · simp at hy
          omega
      · simp [List.set_append_right]

/-- One pass of the outer loop at index `i`, when the first `i` elements are
sorted: the array is permuted, keeps its length, and its first `i + 1` elements
are sorted. -/
theorem insert_sort_body_spec (a : List Int) (i : Nat) (hi : i < a.length)
    (hs : List.Sorted (· ≤ ·) (a.take i)) :
    (insert_sort.body a i).Perm a ∧ (insert_sort.body a i).length = a.length ∧
      List.Sorted (· ≤ ·) ((insert_sort.body a i).take (i + 1)) := by
  have hsplit : a = a.take i ++ a[i] :: a.drop (i + 1) := by
    rw [← List.drop_eq_getElem_cons hi, List.take_append_drop]
  have hlen : (a.take i).length = i := by
    rw [List.length_take]
    omega
  have hsave : a.getD i 0 = a[i] := List.getD_eq_getElem a 0 hi
  obtain ⟨l1, l2, hl, h1, h2, hres⟩ :=
    insert_sort_shift_spec a[i] (a.take i) hs a[i] (a.drop (i + 1))
  rw [hlen, ← hsplit] at hres
  have hbody : insert_sort.body a i = l1 ++ a[i] :: l2 ++ a.drop (i + 1) := by
    simp only [insert_sort.body, hsave]
    exact hres
  have hl12 : l1.length + l2.length = i := by
    have := congrArg List.length hl
    simp only [List.length_append] at this
    omega
  refine ⟨?_, ?_, ?_⟩
  · have hperm : (l1 ++ a[i] :: l2 ++ a.drop (i + 1)).Perm
        ((l1 ++ l2) ++ a[i] :: a.drop (i + 1)) := by
      simp only [List.append_assoc, List.cons_append]
      exact List.Perm.append_left l1 List.perm_middle.symm
    have hback : (l1 ++ l2) ++ a[i] :: a.drop (i + 1) = a := by
      rw [← hl]
      exact hsplit.symm
    rw [hback] at hperm
    rw [hbody]
    exact hperm
  · rw [hbody]
    have := congrArg List.length hsplit
    simp only [List.length_append, List.length_cons, hlen] at this
    simp only [List.length_append, List.length_cons]
    omega
  · have htake : (insert_sort.body a i).take (i + 1) = l1 ++ a[i] :: l2 := by
      rw [hbody]
      have : l1 ++ a[i] :: l2 ++ a.drop (i + 1) = (l1 ++ a[i] :: l2) ++ a.drop (i + 1) := by
        simp
      rw [this, List.take_left']
      simp only [List.length_append, List.length_cons]
      omega
    rw [htake]
    rw [hl] at hs
    have hp := List.pairwise_append.mp hs
    refine List.pairwise_append.mpr ⟨hp.1, ?_, ?_⟩
    · refine List.pairwise_cons.mpr ⟨fun y hy => le_of_lt (h2 y hy), hp.2.1⟩
    · intro x hx y hy
      rcases List.mem_cons.mp hy with hy | hy
      · rw [hy]
        exact h1 x hx
      · exact hp.2.2 x hx y hy

/-- The outer loop run for `i, i + 1, ..., i + n - 1` keeps the invariant:
a permutation of the input of the same length whose first `i` elements are
sorted. -/
theorem insert_sort_loop_spec (a0 : List Int) (n : Nat) :
    ∀ (i : Nat) (a : List Int), a.Perm a0 → a.length = a0.length →
      List.Sorted (· ≤ ·) (a.take i) → i + n ≤ a0.length →
      ((List.range' i n).foldl insert_sort.body a).Perm a0 ∧
      ((List.range' i n).foldl insert_sort.body a).length = a0.length ∧
      List.Sorted (· ≤ ·) (((List.range' i n).foldl insert_sort.body a).take (i + n)) := by
  induction n with
  | zero =>
    intro i a hp hl hs _
    exact ⟨hp, hl, hs⟩
  | succ n ih =>
    intro i a hp hl hs hle
    obtain ⟨bp, bl, bs⟩ := insert_sort_body_spec a i (by omega) hs
    have := ih (i + 1) (insert_sort.body a i) (bp.trans hp) (bl.trans hl) bs (by omega)
    simp only [List.range'_succ, List.foldl_cons]
    rw [show i + (n + 1) = i + 1 + n by omega]
    exact this

/-- The array left by `insert_sort` called on a whole array is sorted ascending
and is a permutation of the input. -/
theorem insert_sort_sorted_perm (array : List Int) (size : Nat)
    (hsize : array.length = size) :
    List.Sorted (· ≤ ·) (insert_sort array size) ∧ (insert_sort array size).Perm array := by
  unfold insert_sort
  by_cases h0 : size = 0
  · subst h0
    have : array = [] := List.length_eq_zero.mp hsize
    subst this
    simp
  · have hs1 : List.Sorted (· ≤ ·) (array.take 1) := by
      cases array with
      | nil => simp
      | cons x xs => simp
    obtain ⟨hp, hl, hs⟩ :=
      insert_sort_loop_spec array (size - 1) 1 array (List.Perm.refl _) rfl hs1 (by omega)
    refine ⟨?_, hp⟩
    have hfull : 1 + (size - 1) =
        ((List.range' 1 (size - 1)).foldl insert_sort.body array).length := by
      rw [hl]
      omega
    rw [hfull, List.take_length] at hs
    exact hs

/-- The stage for `NUMSAMPLES > 2`: the value is the element of index
`NUMSAMPLES / 2` of the sorted samples and the flag is left as it was. -/
theorem sampleAxis_many_eq (n pin : Nat) (valid : Bool) (b : Board) (h3 : 3 ≤ n) :
    sampleAxis n pin valid b =
      ((insert_sort ((List.range n).map b.adc) n).getD (n / 2) 0, valid,
        (readSamples pin n b).2) := by
  have hn : n > 2 := by omega
  have hn2 : ¬ n = 2 := by omega
  simp [sampleAxis, readSamples_fst, hn, hn2]

/-- C10: under the policy for `NUMSAMPLES >= 3` (at most 255 samples),
`insert_sort` leaves every array of `NUMSAMPLES` samples sorted ascending and a
permutation of its input; in `getPoint` the X value is the element of index
`NUMSAMPLES / 2` of the sorted X-stage samples, the Y value likewise for the
Y-stage samples, and the validity flag is still true at the return, whatever the
spread of the samples. -/
theorem insert_sort_median_policy (n : Nat) (h3 : 3 ≤ n) (_h255 : n ≤ 255) :
    (∀ array : List Int, array.length = n →
      List.Sorted (· ≤ ·) (insert_sort array n) ∧ (insert_sort array n).Perm array) ∧
    (∀ (ts : TouchScreen) (b : Board),
      (ts.getPointRun n b).x = (insert_sort ((List.range n).map b.adc) n).getD (n / 2) 0 ∧
      (ts.getPointRun n b).y =
        (insert_sort ((List.range n).map (fun k => b.adc (k + n))) n).getD (n / 2) 0 ∧
      (ts.getPointRun n b).valid = true) := by
  refine ⟨fun array h => insert_sort_sorted_perm array n h, ?_⟩
  intro ts b
  simp only [TouchScreen.getPointRun, sampleAxis_many_eq _ _ _ _ h3, readSamples_adc, pinMode,
    digitalWrite]
  simp

/-- C10, instance: five samples 100, 900, 50, 2, 300 per stage. -/
theorem insert_sort_median_policy_witness :
    (3 ≤ 5 ∧ 5 ≤ 255) ∧
    insert_sort [100, 900, 50, 2, 300] 5 = [2, 50, 100, 300, 900] ∧
    List.Sorted (· ≤ ·) (insert_sort [100, 900, 50, 2, 300] 5) ∧
    ((TouchScreen.init4 6 15 14 7).getPointRun 5
      (Board.fresh (adcOf [100, 900, 50, 2, 300, 500, 3, 4, 5, 6, 7, 8]))).x = 100 ∧
    ((TouchScreen.init4 6 15 14 7).getPointRun 5
      (Board.fresh (adcOf [100, 900, 50, 2, 300, 500, 3, 4, 5, 6, 7, 8]))).valid = true :=
  have h := insert_sort_median_policy 5 (by decide) (by decide)
  ⟨⟨by decide, by decide⟩, by decide, (h.1 [100, 900, 50, 2, 300] rfl).1,
   ((h.2 (TouchScreen.init4 6 15 14 7)
      (Board.fresh (adcOf [100, 900, 50, 2, 300, 500, 3, 4, 5, 6, 7, 8]))).1).trans
      (by decide),
   (h.2 (TouchScreen.init4 6 15 14 7)
      (Board.fresh (adcOf [100, 900, 50, 2, 300, 500, 3, 4, 5, 6, 7, 8]))).2.2⟩

/-! ## Finiteness of the resistance computation -/

/-- The search for the unit in the last place succeeds at or before any
admissible exponent `c` of the searched interval. -/
theorem quantumFrom_le (q : ℚ) (n : Nat) :
    ∀ (t0 c : Int), t0 ≤ c → c < t0 + n → |q| < (2 : ℚ) ^ (c + 24) →
      ∃ t, quantumFrom q n t0 = some t ∧ t0 ≤ t ∧ t ≤ c := by
  induction n with
  | zero =>
    intro t0 c h1 h2 _
    simp at h2
    omega
  | succ n ih =>
    intro t0 c h1 h2 hq
    by_cases h : |q| < (2 : ℚ) ^ (t0 + 24)
    · exact ⟨t0, by simp [quantumFrom, h], le_refl _, h1⟩
    · have hne : t0 ≠ c := by
        rintro rfl
        exact h hq
      obtain ⟨t, ht, h3, h4⟩ :=
        ih (t0 + 1) c (by omega) (by push_cast at h2 ⊢; omega) hq
      exact ⟨t, by simp [quantumFrom, h, ht], by omega, h4⟩

/-- Rounding to the nearest integer never crosses an integer bound. -/
theorem roundHalfEven_abs_le (x : ℚ) (N : Int) (h : |x| ≤ (N : ℚ)) :
    |((roundHalfEven x : Int) : ℚ)| ≤ (N : ℚ) := by
  obtain ⟨hlo, hhi⟩ := abs_le.mp h
  have hf1 : -N ≤ ⌊x⌋ := Int.le_floor.mpr (by push_cast; exact hlo)
  have hf2 : ((⌊x⌋ : Int) : ℚ) ≤ x := Int.floor_le x
  have hf3 : ⌊x⌋ ≤ N := by
    have : ((⌊x⌋ : Int) : ℚ) ≤ (N : ℚ) := le_trans hf2 hhi
    exact_mod_cast this
  have hup : ¬ (x - ⌊x⌋ < 1 / 2) → ⌊x⌋ + 1 ≤ N := by
    intro hr
    have h1 : ((⌊x⌋ : Int) : ℚ) < (N : ℚ) := by linarith
    have h2 : ⌊x⌋ < N := by exact_mod_cast h1
    omega
  have key : -N ≤ roundHalfEven x ∧ roundHalfEven x ≤ N := by
    unfold roundHalfEven
    dsimp only
    split_ifs with c1 c2 c3
    · exact ⟨hf1, hf3⟩
    · exact ⟨by omega, hup c1⟩
    · exact ⟨hf1, hf3⟩
    · exact ⟨by omega, hup c1⟩
  rw [abs_le]
  constructor
  · have : ((-N : Int) : ℚ) ≤ ((roundHalfEven x : Int) : ℚ) := by exact_mod_cast key.1
    simpa using this
  · exact_mod_cast key.2

/-- Rounding an integer to the nearest integer gives it back. -/
theorem roundHalfEven_intCast (m : Int) : roundHalfEven (m : ℚ) = m := by
  unfold roundHalfEven
  simp

theorem quantum_le (q : ℚ) (c : Int) (h1 : -149 ≤ c) (h2 : c ≤ 104)
    (hq : |q| < (2 : ℚ) ^ (c + 24)) :
    ∃ t, quantum q = some t ∧ -149 ≤ t ∧ t ≤ c := by
  have h3 : c < (-149 : Int) + ((254 : Nat) : Int) := by
    push_cast
    omega
  exact quantumFrom_le q 254 (-149) c h1 h3 hq

theorem Float32.round_eq (q : ℚ) (t : Int) (ht : quantum q = some t)
    (hfin : |((roundHalfEven (q / (2 : ℚ) ^ t) : Int) : ℚ) * (2 : ℚ) ^ t| <
      (2 : ℚ) ^ (128 : Int)) :
    Float32.round q = some (((roundHalfEven (q / (2 : ℚ) ^ t) : Int) : ℚ) * (2 : ℚ) ^ t) := by
  unfold Float32.round
  rw [ht]
  exact if_pos hfin

/-- A value bounded by a power of two within the binary32 range rounds to a
finite value under the same bound. -/
theorem Float32.round_bound (q : ℚ) (k : Int) (hk1 : -125 ≤ k) (hk2 : k ≤ 127)
    (hq : |q| ≤ (2 : ℚ) ^ k) :
    ∃ v, Float32.round q = some v ∧ |v| ≤ (2 : ℚ) ^ k := by
  have h2 : (1 : ℚ) < 2 := by norm_num
  have h20 : (2 : ℚ) ≠ 0 := by norm_num
  have hq1 : |q| < (2 : ℚ) ^ (k - 23 + 24) :=
    lt_of_le_of_lt hq (zpow_lt_zpow_right₀ h2 (by omega))
  obtain ⟨t, ht, ht1, ht2⟩ := quantum_le q (k - 23) (by omega) (by omega) hq1
  have hpos : (0 : ℚ) < (2 : ℚ) ^ t := zpow_pos (by norm_num) t
  have hN : (((2 : Int) ^ (k - t).toNat : Int) : ℚ) = (2 : ℚ) ^ (k - t) := by
    push_cast
    rw [← zpow_natCast, Int.toNat_of_nonneg (by omega)]
  have hscaled : |q / (2 : ℚ) ^ t| ≤ (((2 : Int) ^ (k - t).toNat : Int) : ℚ) := by
    rw [hN, abs_div, abs_of_pos hpos, zpow_sub₀ h20]
    exact div_le_div_of_nonneg_right hq (le_of_lt hpos)
  have hr := roundHalfEven_abs_le _ _ hscaled
  have hv : |((roundHalfEven (q / (2 : ℚ) ^ t) : Int) : ℚ) * (2 : ℚ) ^ t| ≤ (2 : ℚ) ^ k := by
    rw [abs_mul, abs_of_pos hpos]
    calc |((roundHalfEven (q / (2 : ℚ) ^ t) : Int) : ℚ)| * (2 : ℚ) ^ t
        ≤ (((2 : Int) ^ (k - t).toNat : Int) : ℚ) * (2 : ℚ) ^ t :=
          mul_le_mul_of_nonneg_right hr (le_of_lt hpos)
      _ = (2 : ℚ) ^ k := by
          rw [hN, ← zpow_add₀ h20]
          congr 1
          omega
  have hfin : |((roundHalfEven (q / (2 : ℚ) ^ t) : Int) : ℚ) * (2 : ℚ) ^ t| <
      (2 : ℚ) ^ (128 : Int) :=
    lt_of_le_of_lt hv (zpow_lt_zpow_right₀ h2 (by omega))
  exact ⟨_, Float32.round_eq q t ht hfin, hv⟩

/-- An integer below `2 ^ 24` in magnitude converts to `float` exactly. -/
theorem Float32.ofInt_exact (i : Int) (h : |i| < 16777216) :
    Float32.ofInt i = some (i : ℚ) := by
  have h2 : (1 : ℚ) < 2 := by norm_num
  have h20 : (2 : ℚ) ≠ 0 := by norm_num
  have habs : |(i : ℚ)| < (2 : ℚ) ^ ((0 : Int) + 24) := by
    have : ((|i| : Int) : ℚ) < ((16777216 : Int) : ℚ) := by exact_mod_cast h
    rw [Int.cast_abs] at this
    have h24 : (2 : ℚ) ^ ((0 : Int) + 24) = 16777216 := by norm_num
    rw [h24]
    exact_mod_cast this
  obtain ⟨t, ht, ht1, ht2⟩ := quantum_le (i : ℚ) 0 (by omega) (by omega) habs
  have hpos : (0 : ℚ) < (2 : ℚ) ^ t := zpow_pos (by norm_num) t
  have hscaled : (i : ℚ) / (2 : ℚ) ^ t = ((i * (2 : Int) ^ (-t).toNat : Int) : ℚ) := by
    push_cast
    rw [← zpow_natCast, Int.toNat_of_nonneg (by omega), zpow_neg, div_eq_mul_inv]
  have hback : ((roundHalfEven ((i : ℚ) / (2 : ℚ) ^ t) : Int) : ℚ) * (2 : ℚ) ^ t = (i : ℚ) := by
    rw [hscaled, roundHalfEven_intCast, ← hscaled]
    field_simp
  have hfin : |((roundHalfEven ((i : ℚ) / (2 : ℚ) ^ t) : Int) : ℚ) * (2 : ℚ) ^ t| <
      (2 : ℚ) ^ (128 : Int) := by
    rw [hback]
    exact lt_trans habs (zpow_lt_zpow_right₀ h2 (by omega))
  have := Float32.round_eq (i : ℚ) t ht hfin
  rw [hback] at this
  exact this


/-- Compound assignment `a /= i` on a finite `a` with a small nonzero integer `i`. -/
theorem Float32.divInt_some (a : ℚ) (i : Int) (hi : |i| < 16777216) (hi0 : i ≠ 0) :
    Float32.divInt (some a) i = Float32.round (a / (i : ℚ)) := by
  have h0 : ¬ ((i : ℚ) = 0) := by exact_mod_cast hi0
  unfold Float32.divInt
  rw [Float32.ofInt_exact i hi]
  exact if_neg h0

/-- Compound assignment `a -= i` on a finite `a` with a small integer `i`. -/
theorem Float32.subInt_some (a : ℚ) (i : Int) (hi : |i| < 16777216) :
    Float32.subInt (some a) i = Float32.round (a - (i : ℚ)) := by
  unfold Float32.subInt
  rw [Float32.ofInt_exact i hi]

/-- Compound assignment `a *= i` on a finite `a` with a small integer `i`. -/
theorem Float32.mulInt_some (a : ℚ) (i : Int) (hi : |i| < 16777216) :
    Float32.mulInt (some a) i = Float32.round (a * (i : ℚ)) := by
  unfold Float32.mulInt
  rw [Float32.ofInt_exact i hi]

/-- With in-range readings, a nonzero z1 and a 16-bit panel resistance, the
resistance computation of `getPoint` yields a finite `float`, of magnitude at
most `2 ^ 27`. -/
theorem rtouch_finite (z1 z2 x r : Int) (hz1 : 1 ≤ z1 ∧ z1 ≤ 1023)
    (hz2 : 0 ≤ z2 ∧ z2 ≤ 1023) (hx : 0 ≤ x ∧ x ≤ 1023) (hr : 0 ≤ r ∧ r ≤ 65535) :
    ∃ q, rtouch z1 z2 x r = some q ∧ |q| ≤ 134217728 := by
  have e10 : (2 : ℚ) ^ (10 : Int) = 1024 := by norm_num
  have e11 : (2 : ℚ) ^ (11 : Int) = 2048 := by norm_num
  have e21 : (2 : ℚ) ^ (21 : Int) = 2097152 := by norm_num
  have e37 : (2 : ℚ) ^ (37 : Int) = 137438953472 := by norm_num
  have e27 : (2 : ℚ) ^ (27 : Int) = 134217728 := by norm_num
  have sz1 : |z1| < 16777216 := by rw [abs_lt]; omega
  have sz2 : |z2| < 16777216 := by rw [abs_lt]; omega
  have sx : |x| < 16777216 := by rw [abs_lt]; omega
  have sr : |r| < 16777216 := by rw [abs_lt]; omega
  have s1 : |(1 : Int)| < 16777216 := by rw [abs_lt]; omega
  have s1024 : |(1024 : Int)| < 16777216 := by rw [abs_lt]; omega
  have az1 : (1 : ℚ) ≤ |(z1 : ℚ)| := by
    rw [abs_of_nonneg (by exact_mod_cast (by omega : (0 : Int) ≤ z1))]
    exact_mod_cast hz1.1
  have az2 : |(z2 : ℚ)| ≤ 1023 := by
    rw [abs_of_nonneg (by exact_mod_cast hz2.1)]
    exact_mod_cast hz2.2
  have ax : |(x : ℚ)| ≤ 1023 := by
    rw [abs_of_nonneg (by exact_mod_cast hx.1)]
    exact_mod_cast hx.2
  have ar : |(r : ℚ)| ≤ 65535 := by
    rw [abs_of_nonneg (by exact_mod_cast hr.1)]
    exact_mod_cast hr.2
  have hz1ne : (z1 : ℚ) ≠ 0 := by
    intro h
    rw [h] at az1
    simp at az1
    linarith
  -- rtouch = z2; rtouch /= z1
  have b1 : |(z2 : ℚ) / (z1 : ℚ)| ≤ (2 : ℚ) ^ (10 : Int) := by
    rw [e10, abs_div]
    have : |(z2 : ℚ)| / |(z1 : ℚ)| ≤ |(z2 : ℚ)| := div_le_self (abs_nonneg _) az1
    linarith
  obtain ⟨v1, hv1, bv1⟩ := Float32.round_bound _ 10 (by omega) (by omega) b1
  -- rtouch -= 1
  have b2 : |v1 - ((1 : Int) : ℚ)| ≤ (2 : ℚ) ^ (11 : Int) := by
    rw [e11]
    rw [e10] at bv1
    have := abs_sub v1 ((1 : Int) : ℚ)
    have h1 : |(((1 : Int) : ℚ))| = 1 := by norm_num
    linarith
  obtain ⟨v2, hv2, bv2⟩ := Float32.round_bound _ 11 (by omega) (by omega) b2
  -- rtouch *= x
  have b3 : |v2 * (x : ℚ)| ≤ (2 : ℚ) ^ (21 : Int) := by
    rw [e21, abs_mul]
    rw [e11] at bv2
    have := mul_le_mul bv2 ax (abs_nonneg _) (by norm_num)
    linarith
  obtain ⟨v3, hv3, bv3⟩ := Float32.round_bound _ 21 (by omega) (by omega) b3
  -- rtouch *= _rxplate
  have b4 : |v3 * (r : ℚ)| ≤ (2 : ℚ) ^ (37 : Int) := by
    rw [e37, abs_mul]
    rw [e21] at bv3
    have := mul_le_mul bv3 ar (abs_nonneg _) (by norm_num)
    linarith
  obtain ⟨v4, hv4, bv4⟩ := Float32.round_bound _ 37 (by omega) (by omega) b4
  -- rtouch /= 1024
  have b5 : |v4 / ((1024 : Int) : ℚ)| ≤ (2 : ℚ) ^ (27 : Int) := by
    rw [e27, abs_div]
    rw [e37] at bv4
    have h1 : |(((1024 : Int) : ℚ))| = 1024 := by norm_num
    rw [h1, div_le_iff₀ (by norm_num)]
    linarith
  obtain ⟨v5, hv5, bv5⟩ := Float32.round_bound _ 27 (by omega) (by omega) b5
  refine ⟨v5, ?_, by rw [e27] at bv5; exact bv5⟩
  unfold rtouch
  rw [Float32.ofInt_exact z2 sz2, Float32.divInt_some _ z1 sz1 (by omega), hv1,
    Float32.subInt_some _ 1 s1, hv2, Float32.mulInt_some _ x sx, hv3,
    Float32.mulInt_some _ r sr, hv4, Float32.divInt_some _ 1024 s1024 (by omega), hv5]

/-! ## The resistance formula in getPoint -/

/-- The pins converted by the six analog reads of `getPoint`: Y+ twice, X-
twice, then X- and Y+. -/
theorem getPoint_read_pins (ts : TouchScreen) (b : Board) :
    (readsSince b (ts.getPoint b).2).map (fun e => e.pin) =
      [ts._yp, ts._yp, ts._xm, ts._xm, ts._xm, ts._yp] := by
  simp [readsSince, TouchScreen.getPoint, TouchScreen.getPointWith, NUMSAMPLES,
    TouchScreen.getPointRun, sampleAxis, readSamples_reads, analogRead, pinMode, digitalWrite]

/-- C6 (as stated, refuted): with panel resistance 300 and agreeing samples,
X = 1000, z1 = 1, z2 = 1001 give `z = 30824` although the formula over exact
numbers gives 292968 (the `int16_t` field cannot hold it); and X = 512,
z1 = 600, z2 = 400 give `z = -49` although the exact formula gives -50 (the
quotient 400/600 is rounded to single precision). -/
theorem getPoint_rtouch_differs_from_exact_formula :
    ((TouchScreen.init5 6 15 14 7 300).getPoint
      (Board.fresh (adcOf [1000, 1000, 50, 50, 1, 1001]))).1.z = 30824 ∧
    specRtouch 1 1001 1000 300 = 292968 ∧
    ((TouchScreen.init5 6 15 14 7 300).getPoint
      (Board.fresh (adcOf [512, 512, 50, 50, 600, 400]))).1.z = -49 ∧
    specRtouch 600 400 512 300 = -50 := by
  decide!

/-- C6 (amended): for a nonzero 16-bit panel resistance, in-range readings, both
agreement checks passing and z1 nonzero, the single-precision evaluation of
`((z2 / z1) - 1) * X * R / 1024` with X the second X-stage sample is finite (at
most `2 ^ 27` in magnitude) and `getPoint` returns its truncation toward zero
reduced to 16 bits; the point's `x` is that same sample; the call makes exactly
six analog reads (Y+, Y+, X-, X-, X-, Y+); and X = 512, z1 = 400, z2 = 600,
R = 300 give `z = 75`. -/
theorem getPoint_rtouch_single_precision (ts : TouchScreen) (b : Board)
    (hR : ts._rxplate ≠ 0) (hR16 : ts._rxplate ≤ 65535) (hr : InRange b)
    (hx : |b.adc 0 - b.adc 1| ≤ 5) (hy : |b.adc 2 - b.adc 3| ≤ 5) (hz1 : b.adc 4 ≠ 0) :
    (∃ q : ℚ, rtouch (b.adc 4) (b.adc 5) (b.adc 1) ts._rxplate = some q ∧
      |q| ≤ 134217728 ∧ (ts.getPoint b).1.z = wrap16 (Int.tdiv q.num (q.den : Int))) ∧
    (ts.getPoint b).1.x = b.adc 1 ∧
    (readsSince b (ts.getPoint b).2).map (fun e => e.pin) =
      [ts._yp, ts._yp, ts._xm, ts._xm, ts._xm, ts._yp] ∧
    (b.adc 1 = 512 → b.adc 4 = 400 → b.adc 5 = 600 → ts._rxplate = 300 →
      (ts.getPoint b).1.z = 75) := by
  obtain ⟨hxv, _, hv, hz⟩ := getPointRun_two ts b
  have hvalid : (ts.getPointRun 2 b).valid = true := by
    rw [hv]
    simp [not_lt.mpr hx, not_lt.mpr hy]
  have hzv : (ts.getPoint b).1.z = wrap16 (Float32.toInt b.nonFinite
      (rtouch (b.adc 4) (b.adc 5) (b.adc 1) ts._rxplate)) := by
    simp only [TouchScreen.getPoint, TouchScreen.getPointWith, NUMSAMPLES, TSPoint.init3]
    rw [hz, hvalid]
    simp [hR]
  have h1 := hr 1
  have h4 := hr 4
  have h5 := hr 5
  obtain ⟨q, hq, hqb⟩ := rtouch_finite (b.adc 4) (b.adc 5) (b.adc 1) ts._rxplate
    ⟨by omega, h4.2⟩ h5 h1 ⟨by omega, by exact_mod_cast hR16⟩
  refine ⟨⟨q, hq, hqb, ?_⟩, ?_, getPoint_read_pins ts b, ?_⟩
  · rw [hzv, hq]
    rfl
  · simp only [TouchScreen.getPoint, TouchScreen.getPointWith, NUMSAMPLES, TSPoint.init3, hxv]
    exact wrap16_of_range _ (by omega) (by omega)
  · intro e1 e4 e5 eR
    have h75 : rtouch 400 600 512 300 = some 75 := by decide!
    rw [hzv, e1, e4, e5, eR]
    simp only [Nat.cast_ofNat, h75, Float32.toInt]
    decide!

/-- C6 (amended), instance: X samples 508 and 512, z1 = 400, z2 = 600 and panel
resistance 300 give `z = 75`. -/
theorem getPoint_rtouch_single_precision_witness :
    (TouchScreen.init5 6 15 14 7 300)._rxplate ≠ 0 ∧
    InRange (Board.fresh (adcOf [508, 512, 50, 50, 400, 600])) ∧
    ((TouchScreen.init5 6 15 14 7 300).getPoint
      (Board.fresh (adcOf [508, 512, 50, 50, 400, 600]))).1.z = 75 :=
  ⟨by decide, inRange_fresh_adcOf _ (by decide),
   (getPoint_rtouch_single_precision (TouchScreen.init5 6 15 14 7 300)
      (Board.fresh (adcOf [508, 512, 50, 50, 400, 600])) (by decide) (by decide)
      (inRange_fresh_adcOf _ (by decide)) (by decide) (by decide) (by decide)).2.2.2
      rfl rfl rfl rfl⟩
